import Mathlib

/-!
Shallow embedding of the Othello rules engine (src/src/lib.rs) together with
declarative specifications of its board logic, and proofs relating the two.

Conventions of the embedding:
* machine integers (u64 bitfields, u8 coordinates and scores) are modelled as
  Nat; every bit index that reaches a shift is at most 63, and every score is
  at most 64, so no wrap-around is reachable in the modelled paths;
* a Rust panic (explicit panic!, failed assert!, failed unwrap, unreachable!)
  is modelled as Option.none at the outermost layer of the function;
* fallible functions returning Result are modelled with Except OthelloError;
* the while loops of the two ray scans run at most 8 iterations, because each
  iteration moves one cell in a fixed nonzero compass direction on an 8 by 8
  board; they are modelled by structural recursion on a fuel argument that the
  top-level calls instantiate with 8, matching that bound.
External collaborators (terminal rendering, the Player trait, the filesystem,
clocks, JSON serialization) are outside the embedding; the player objects held
by Game are reduced to the display names the state machine reads from them,
and the timestamp used as a save title becomes an explicit argument.
-/

/-- The three cell states of src/src/lib.rs (enum Disc). -/
inductive Disc where
  | White
  | Black
  | Empty
deriving DecidableEq, Repr

/-- The Not impl for Disc: toggle to the opponent, identity on Empty. -/
def Disc.not : Disc → Disc
  | Disc.White => Disc.Black
  | Disc.Black => Disc.White
  | Disc.Empty => Disc.Empty

/-- The static DIRECTIONS array: the 8 compass directions as (dx, dy). -/
def DIRECTIONS : List (Int × Int) :=
  [(-1, -1), (0, -1), (1, -1), (-1, 0), (1, 0), (-1, 1), (0, 1), (1, 1)]

/-- struct Board: a fixed array of 64 cells, index = row * 8 + col. -/
structure Board where
  squares : Fin 64 → Disc

/-- The linear index of in-bounds coordinates, none when off the board.
This packages the bounds test (0..8).contains performed by both ray scans. -/
def boardIdx? (nx ny : Int) : Option (Fin 64) :=
  if h : 0 ≤ nx ∧ nx < 8 ∧ 0 ≤ ny ∧ ny < 8 then
    some ⟨(ny * 8 + nx).toNat, by omega⟩
  else none

/-- The cell of a board at Int coordinates, none when off the board. -/
def Board.at? (b : Board) (nx ny : Int) : Option Disc :=
  (boardIdx? nx ny).map b.squares

/-- Board::new, the starting layout. -/
def Board.new : Board :=
  ⟨fun i =>
    if i.val = 27 then Disc.White else if i.val = 28 then Disc.Black
    else if i.val = 35 then Disc.Black else if i.val = 36 then Disc.White
    else Disc.Empty⟩

/-- Board::scores, accumulating (white, black, empty) over all 64 squares. -/
def Board.scores (b : Board) : Nat × Nat × Nat :=
  (List.finRange 64).foldl (fun acc i =>
    match b.squares i with
    | Disc.White => (acc.1 + 1, acc.2.1, acc.2.2)
    | Disc.Black => (acc.1, acc.2.1 + 1, acc.2.2)
    | Disc.Empty => (acc.1, acc.2.1, acc.2.2 + 1)) (0, 0, 0)

/-- The while loop inside Board::legal_moves: walk from (nx, ny) in direction
(dx, dy); captured records whether an opposite disc was passed. Returns true
exactly when the loop would execute bitfield |= 1 << idx. -/
def scanLegal (b : Board) (player : Disc) (dx dy : Int) :
    Nat → Int → Int → Bool → Bool
  | 0, _, _, _ => false
  | fuel + 1, nx, ny, captured =>
    match boardIdx? nx ny with
    | none => false
    | some n_idx =>
      if b.squares n_idx = Disc.Empty then false
      else if b.squares n_idx = player then captured
      else scanLegal b player dx dy fuel (nx + dx) (ny + dy) true

/-- The loop body of Board::legal_moves (everything after the Empty-player
check): for every empty cell and every direction, set bit idx when the scan
succeeds. -/
def Board.legalMovesBF (b : Board) (player : Disc) : Nat :=
  (List.finRange 8).foldl (fun bf y =>
    (List.finRange 8).foldl (fun bf x =>
      let idx : Fin 64 := ⟨y.val * 8 + x.val, by
        have hx := x.isLt; have hy := y.isLt; omega⟩
      if b.squares idx ≠ Disc.Empty then bf
      else DIRECTIONS.foldl (fun bf d =>
        if scanLegal b player d.1 d.2 8 (x.val + d.1) (y.val + d.2) false then
          bf ||| (1 <<< idx.val)
        else bf) bf) bf) 0

/-- Board::legal_moves; none models the panic on an Empty player. -/
def Board.legal_moves (b : Board) (player : Disc) : Option Nat :=
  if player = Disc.Empty then none else some (b.legalMovesBF player)

/-- The while loop inside Board::move_outflanks: may is the accumulated
may_outflank bitfield; the return value is the contribution OR-ed into the
result bitfield (0 when the loop ends without flushing). -/
def scanOutflank (b : Board) (player : Disc) (dx dy : Int) :
    Nat → Int → Int → Nat → Nat
  | 0, _, _, _ => 0
  | fuel + 1, nx, ny, may =>
    match boardIdx? nx ny with
    | none => 0
    | some n_idx =>
      if b.squares n_idx = Disc.Empty then 0
      else if b.squares n_idx = player ∧ may ≠ 0 then may
      else scanOutflank b player dx dy fuel (nx + dx) (ny + dy)
        (may ||| (1 <<< n_idx.val))

/-- struct Move: a position, coordinates each 0 to 7 in the intended use
(u8 in the source). -/
structure Move where
  col : Nat
  row : Nat
deriving DecidableEq, Repr

/-- Board::move_outflanks; none models the panic on an Empty player. -/
def Board.move_outflanks (b : Board) (player : Disc) (mov : Move) :
    Option Nat :=
  if player = Disc.Empty then none
  else some (DIRECTIONS.foldl (fun bf d =>
    bf ||| scanOutflank b player d.1 d.2 8
      ((mov.col : Int) + d.1) ((mov.row : Int) + d.2) 0) 0)

/-- Board::put_discs: write player at every set bit of the bitfield. -/
def Board.put_discs (b : Board) (bitfield : Nat) (player : Disc) : Board :=
  ⟨fun i => if (1 <<< i.val) &&& bitfield ≠ 0 then player else b.squares i⟩

/-- Board::change_disc: write one cell; none models the failed asserts on
out-of-range coordinates. -/
def Board.change_disc (b : Board) (mov : Move) (disc : Disc) : Option Board :=
  if mov.col < 8 ∧ mov.row < 8 then
    some ⟨fun i => if i.val = mov.row * 8 + mov.col then disc else b.squares i⟩
  else none

/-- enum OthelloError. Strings are modelled as lists of Char; the variants
wrapping external io / serde errors carry no payload here. -/
inductive OthelloError where
  | InvalidAlgebric (text : List Char)
  | IllegalMove (row : Nat) (col : Nat)
  | LegalMovesNotComputed
  | IoError
  | InvalidLenghtOfNotation
  | InvalidCharInNotation (ch : Char)
  | InvalidPlayerType
  | SerdeJsonError
deriving DecidableEq, Repr

/-- The number of bytes of the UTF-8 encoding of one scalar value: what one
char contributes to str::len in Rust. -/
def charUtf8Size (c : Char) : Nat :=
  if c.toNat < 0x80 then 1
  else if c.toNat < 0x800 then 2
  else if c.toNat < 0x10000 then 3
  else 4

/-- str::len: the byte length of the UTF-8 encoding. -/
def utf8Length (s : List Char) : Nat :=
  (s.map charUtf8Size).sum

/-- The loop of the FromStr impl for Board: walks char_indices, so i advances
by the byte size of each char; none models the panic of an out-of-bounds
write board[i]. -/
def fromStrLoop (board : Fin 64 → Disc) (i : Nat) :
    List Char → Option (Except OthelloError (Fin 64 → Disc))
  | [] => some (Except.ok board)
  | c :: rest =>
    if c = '-' then fromStrLoop board (i + charUtf8Size c) rest
    else if c = 'O' then
      if h : i < 64 then
        fromStrLoop (fun j => if j = ⟨i, h⟩ then Disc.White else board j)
          (i + charUtf8Size c) rest
      else none
    else if c = 'X' then
      if h : i < 64 then
        fromStrLoop (fun j => if j = ⟨i, h⟩ then Disc.Black else board j)
          (i + charUtf8Size c) rest
      else none
    else some (Except.error (OthelloError.InvalidCharInNotation c))

/-- Board::from_str (the FromStr impl). -/
def Board.from_str (s : List Char) : Option (Except OthelloError Board) :=
  if utf8Length s ≠ 64 then some (Except.error OthelloError.InvalidLenghtOfNotation)
  else (fromStrLoop (fun _ => Disc.Empty) 0 s).map (Except.map Board.mk)

/-- algebric2xy: parse a two-character algebraic position. The source casts
each char to u8 (truncation to the low byte) before the range checks; none
models the panic of the second unwrap when a single char fills both bytes. -/
def algebric2xy (pos : List Char) : Option (Except OthelloError (Nat × Nat)) :=
  if utf8Length pos ≠ 2 then
    some (Except.error (OthelloError.InvalidAlgebric pos))
  else
    match pos with
    | [] => none
    | c1 :: rest =>
      let col := c1.toNat % 256
      match rest with
      | [] => none
      | c2 :: _ =>
        let row := c2.toNat % 256
        if ¬(97 ≤ col ∧ col ≤ 104) ∨ ¬(49 ≤ row ∧ row ≤ 56) then
          some (Except.error (OthelloError.InvalidAlgebric pos))
        else some (Except.ok (col - 97, row - 49))

/-- Move::from_algebric. -/
def Move.from_algebric (pos : List Char) : Option (Except OthelloError Move) :=
  (algebric2xy pos).map (Except.map (fun xy => { col := xy.1, row := xy.2 }))

/-- enum State of the game. -/
inductive State where
  | Playing
  | Winned (winner_color : Disc) (winner_name : String)
      (winner_score : Nat) (loser_score : Nat)
  | Draw
  | TurnForfeited
deriving DecidableEq, Repr

/-- struct GameSettings; the save directory path is kept only as present or
absent, its contents never influence the state machine. -/
structure GameSettings where
  show_legal_moves : Bool
  saves_game_dir : Option String
  game_record : Bool
deriving DecidableEq, Repr

/-- struct GameSave, reduced to the fields the state machine writes: the
title, the recorded moves and the end state. The player types and names it
also stores describe the external player collaborators. -/
structure GameSave where
  title : String
  moves : List Move
  end_state : State
deriving DecidableEq, Repr

/-- GameSave::new. -/
def GameSave.new (title : String) : GameSave :=
  { title := title, moves := [], end_state := State.Playing }

/-- GameSave::push_move. -/
def GameSave.push_move (save : GameSave) (movemnt : Move) : GameSave :=
  { save with moves := save.moves ++ [movemnt] }

/-- struct Game. The two boxed Player trait objects are external
collaborators; the state machine reads only their display names, kept here as
the two name fields (the force_name defaults applied). The stream is a pure
display sink and is dropped. -/
structure Game where
  board : Board
  turn : Disc
  current_legal_moves : Option Nat
  state : State
  settings : GameSettings
  save : Option GameSave
  white_name : String
  black_name : String

/-- Game::with_board; dt stands for the timestamp Local::now().to_rfc3339()
taken from the external clock and used as the save title. -/
def Game.with_board (board : Board) (white_name black_name : String)
    (settings : GameSettings) (dt : String) : Game :=
  let game : Game :=
    { board := board, turn := Disc.Black, current_legal_moves := none,
      state := State.Playing, settings := settings, save := none,
      white_name := white_name, black_name := black_name }
  if game.settings.saves_game_dir.isSome ∧ game.settings.game_record then
    { game with save := some (GameSave.new dt) }
  else game

/-- Game::new. -/
def Game.new (white_name black_name : String) (settings : GameSettings)
    (dt : String) : Game :=
  Game.with_board Board.new white_name black_name settings dt

/-- Game::is_legal. -/
def Game.is_legal (bitfield : Nat) (index : Nat) : Bool :=
  bitfield &&& (1 <<< index) ≠ 0

/-- Game::is_legal_move. -/
def Game.is_legal_move (g : Game) (index : Nat) : Except OthelloError Bool :=
  match g.current_legal_moves with
  | none => Except.error OthelloError.LegalMovesNotComputed
  | some moves => Except.ok (Game.is_legal moves index)

/-- Game::next_turn: toggle the turn, drop the cached legal moves, reset the
state to Playing. -/
def Game.next_turn (g : Game) : Game :=
  { g with
    turn := Disc.not g.turn, current_legal_moves := none,
    state := State.Playing }

/-- Game::make_turn: reject a move whose bit is not in the cached mask, else
place the disc, flip the outflanked discs and advance the turn. The outer
Option models the panics reachable through change_disc and move_outflanks. -/
def Game.make_turn (g : Game) (mov : Move) :
    Option (Except OthelloError Game) :=
  let idx := mov.row * 8 + mov.col
  match g.is_legal_move idx with
  | Except.error e => some (Except.error e)
  | Except.ok false =>
    some (Except.error (OthelloError.IllegalMove mov.row mov.col))
  | Except.ok true => do
    let b1 ← g.board.change_disc mov g.turn
    let outflanks ← b1.move_outflanks g.turn mov
    let b2 := b1.put_discs outflanks g.turn
    some (Except.ok (Game.next_turn { g with board := b2 }))

/-- Game::legal_moves (the private method): compute and cache the mask of the
color to move, then derive TurnForfeited, Draw or Winned when it is zero. -/
def Game.legal_moves (g : Game) : Option Game := do
  let lm ← g.board.legal_moves g.turn
  let g1 : Game := { g with current_legal_moves := some lm }
  if lm = 0 then
    let opp ← g1.board.legal_moves (Disc.not g1.turn)
    if opp ≠ 0 then
      some { g1 with state := State.TurnForfeited }
    else
      let s := g1.board.scores
      let white := s.1
      let black := s.2.1
      let empty := s.2.2
      if white = black then
        some { g1 with state := State.Draw }
      else
        let winner_score := max white black + empty
        let loser_score := min white black
        let winner_color := if white > black then Disc.White else Disc.Black
        let winner_name ← match winner_color with
          | Disc.White => some g1.white_name
          | Disc.Black => some g1.black_name
          | Disc.Empty => none
        some { g1 with
          state :=
            State.Winned winner_color winner_name winner_score loser_score }
  else some g1

/-- What one pass of the loop body of Game::play ends in. -/
inductive StepOutcome where
  | terminal (g : Game)
  | forfeited (g : Game)
  | moved (g : Game)
  | rejected (g : Game) (e : OthelloError)
  | fatal (e : OthelloError)

/-- One iteration of the loop of Game::play. Rendering and the prompt writes
are display effects and are dropped; the move the player collaborator
supplies through player_think is the argument mov, consulted only in the
Playing branch. A terminal state breaks the loop, TurnForfeited resolves by
next_turn and continues, a Playing state records the move when game_record is
set (none when the save is missing, the panic), then applies make_turn: an
IllegalMove error keeps the loop in the same turn, any other error returns
from play. -/
def Game.playStep (g : Game) (mov : Move) : Option StepOutcome := do
  let g1 ← g.legal_moves
  match g1.state with
  | State.Winned _ _ _ _ => some (StepOutcome.terminal g1)
  | State.Draw => some (StepOutcome.terminal g1)
  | State.TurnForfeited => some (StepOutcome.forfeited g1.next_turn)
  | State.Playing =>
    let g2 ← if g1.settings.game_record then
        match g1.save with
        | none => none
        | some save => some { g1 with save := some (save.push_move mov) }
      else some g1
    match g2.make_turn mov with
    | none => none
    | some (Except.ok g3) => some (StepOutcome.moved g3)
    | some (Except.error (OthelloError.IllegalMove r c)) =>
      some (StepOutcome.rejected g2 (OthelloError.IllegalMove r c))
    | some (Except.error e) => some (StepOutcome.fatal e)

/-! ## Declarative specifications (stated from the wording of the claims) -/

/-- Spec wording of one qualifying direction for a legal move: scanning
outward from (x, y) in direction (dx, dy), the first run of one-or-more
opposite-color discs (distances 1 to k-1, k at least 2) is immediately
followed by a same-color disc at distance k, with every cell up to k on the
board and none of them Empty. -/
def legalDirSpec (b : Board) (player : Disc) (x y dx dy : Int) : Prop :=
  ∃ k : Nat, 2 ≤ k ∧
    (∀ j : Nat, 1 ≤ j → j < k →
      b.at? (x + j * dx) (y + j * dy) = some (Disc.not player)) ∧
    b.at? (x + k * dx) (y + k * dy) = some player

/-- Spec wording of a legal cell: the cell is Empty and some compass
direction qualifies. -/
def cellLegalSpec (b : Board) (player : Disc) (i : Fin 64) : Prop :=
  b.squares i = Disc.Empty ∧
  ∃ d ∈ DIRECTIONS,
    legalDirSpec b player ((i.val % 8 : Nat) : Int) ((i.val / 8 : Nat) : Int)
      d.1 d.2

/-! ## Generic lemmas about OR-accumulating folds -/

theorem foldl_or_shift {α : Type} (m : α → Nat) :
    ∀ (l : List α) (bf : Nat),
      l.foldl (fun acc a => acc ||| m a) bf =
        bf ||| l.foldl (fun acc a => acc ||| m a) 0 := by
  intro l
  induction l with
  | nil => intro bf; simp
  | cons a l ih =>
    intro bf
    simp only [List.foldl_cons, Nat.zero_or]
    rw [ih (bf ||| m a), ih (m a), Nat.or_assoc]

theorem testBit_foldl_or {α : Type} (m : α → Nat) (i : Nat) :
    ∀ (l : List α),
      ((l.foldl (fun acc a => acc ||| m a) 0).testBit i = true ↔
        ∃ a ∈ l, (m a).testBit i = true) := by
  intro l
  induction l with
  | nil => simp
  | cons a l ih =>
    simp only [List.foldl_cons, Nat.zero_or, List.mem_cons]
    rw [foldl_or_shift m l (m a)]
    simp only [Nat.testBit_or, Bool.or_eq_true, ih]
    constructor
    · rintro (h | ⟨a', ha', h⟩)
      · exact ⟨a, Or.inl rfl, h⟩
      · exact ⟨a', Or.inr ha', h⟩
    · rintro ⟨a', rfl | ha', h⟩
      · exact Or.inl h
      · exact Or.inr ⟨a', ha', h⟩

theorem testBit_one_shiftLeft (n i : Nat) :
    (1 <<< n).testBit i = decide (n = i) := by
  rw [Nat.one_shiftLeft, Nat.testBit_two_pow]

/-! ## C9 and C10 -/

/-- C9: for every board, Board::legal_moves called with the Empty player is
the modelled panic (none): it never silently returns a bitmask, empty or
otherwise. -/
theorem c9_legal_moves_empty_player_panics (b : Board) :
    b.legal_moves Disc.Empty = none := rfl

/-- C10: every Game built by Game::new or Game::with_board starts with Black
to move, State Playing and no cached legal-move mask, whatever the board,
names, settings and clock value supplied. -/
theorem c10_initial_turn_black (board : Board) (wn bn : String)
    (settings : GameSettings) (dt : String) :
    ((Game.with_board board wn bn settings dt).turn = Disc.Black ∧
      (Game.with_board board wn bn settings dt).state = State.Playing ∧
      (Game.with_board board wn bn settings dt).current_legal_moves = none) ∧
    ((Game.new wn bn settings dt).turn = Disc.Black ∧
      (Game.new wn bn settings dt).state = State.Playing ∧
      (Game.new wn bn settings dt).current_legal_moves = none) := by
  constructor
  · unfold Game.with_board
    by_cases h : (GameSettings.saves_game_dir settings).isSome ∧
        settings.game_record
    · simp [h]
    · simp [h]
  · unfold Game.new Game.with_board
    by_cases h : (GameSettings.saves_game_dir settings).isSome ∧
        settings.game_record
    · simp [h]
    · simp [h]

/-! ## Characterizing the legal-move ray scan -/

theorem disc_eq_not_of_ne {d p : Disc} (hp : p ≠ Disc.Empty)
    (he : d ≠ Disc.Empty) (hne : d ≠ p) : d = Disc.not p := by
  cases p <;> cases d <;> simp_all [Disc.not]

theorem disc_not_ne_empty {p : Disc} (hp : p ≠ Disc.Empty) :
    Disc.not p ≠ Disc.Empty := by
  cases p <;> simp_all [Disc.not]

theorem disc_not_ne_self {p : Disc} (hp : p ≠ Disc.Empty) :
    Disc.not p ≠ p := by
  cases p <;> simp_all [Disc.not]

theorem at?_eq_some {b : Board} {nx ny : Int} {d : Disc} :
    b.at? nx ny = some d ↔
      ∃ idx, boardIdx? nx ny = some idx ∧ b.squares idx = d := by
  cases h : boardIdx? nx ny <;> simp [Board.at?, h]

theorem ray_shift (x dx : Int) (j : Nat) :
    x + dx + (j : Int) * dx = x + ((j + 1 : Nat) : Int) * dx := by
  push_cast
  ring

theorem scanLegal_sound {b : Board} {p : Disc} (hp : p ≠ Disc.Empty)
    {dx dy : Int} :
    ∀ (fuel : Nat) (nx ny : Int) (captured : Bool),
      scanLegal b p dx dy fuel nx ny captured = true →
      ∃ k : Nat,
        (∀ j : Nat, j < k →
          b.at? (nx + j * dx) (ny + j * dy) = some (Disc.not p)) ∧
        b.at? (nx + k * dx) (ny + k * dy) = some p ∧
        (captured = true ∨ 1 ≤ k) := by
  intro fuel
  induction fuel with
  | zero => intro nx ny captured h; simp [scanLegal] at h
  | succ fuel ih =>
    intro nx ny captured h
    rw [scanLegal] at h
    cases hb : boardIdx? nx ny with
    | none => rw [hb] at h; exact absurd h (by simp)
    | some idx =>
      rw [hb] at h
      simp only [] at h
      by_cases he : b.squares idx = Disc.Empty
      · rw [if_pos he] at h; exact absurd h (by simp)
      · rw [if_neg he] at h
        by_cases hpl : b.squares idx = p
        · rw [if_pos hpl] at h
          refine ⟨0, fun j hj => absurd hj (by omega), ?_, Or.inl h⟩
          simp only [Nat.cast_zero, zero_mul, add_zero]
          exact at?_eq_some.mpr ⟨idx, hb, hpl⟩
        · rw [if_neg hpl] at h
          obtain ⟨k, hopp, hplayer, _⟩ := ih (nx + dx) (ny + dy) true h
          refine ⟨k + 1, ?_, ?_, Or.inr (by omega)⟩
          · intro j hj
            cases j with
            | zero =>
              simp only [Nat.cast_zero, zero_mul, add_zero]
              exact at?_eq_some.mpr ⟨idx, hb, disc_eq_not_of_ne hp he hpl⟩
            | succ j' =>
              rw [← ray_shift, ← ray_shift]
              exact hopp j' (by omega)
          · rw [← ray_shift, ← ray_shift]
            exact hplayer

theorem scanLegal_complete {b : Board} {p : Disc} (hp : p ≠ Disc.Empty)
    {dx dy : Int} :
    ∀ (k fuel : Nat) (nx ny : Int) (captured : Bool), k + 1 ≤ fuel →
      (∀ j : Nat, j < k →
        b.at? (nx + j * dx) (ny + j * dy) = some (Disc.not p)) →
      b.at? (nx + k * dx) (ny + k * dy) = some p →
      (captured = true ∨ 1 ≤ k) →
      scanLegal b p dx dy fuel nx ny captured = true := by
  intro k
  induction k with
  | zero =>
    intro fuel nx ny captured hfuel _ hplayer hcap
    have hcap' : captured = true := by
      rcases hcap with h | h
      · exact h
      · omega
    obtain ⟨f', rfl⟩ : ∃ f', fuel = f' + 1 := ⟨fuel - 1, by omega⟩
    simp only [Nat.cast_zero, zero_mul, add_zero] at hplayer
    obtain ⟨idx, hb, hsq⟩ := at?_eq_some.mp hplayer
    rw [scanLegal, hb]
    simp only []
    rw [if_neg (by rw [hsq]; exact hp), if_pos hsq]
    exact hcap'
  | succ k' ih =>
    intro fuel nx ny captured hfuel hopp hplayer _
    obtain ⟨f', rfl⟩ : ∃ f', fuel = f' + 1 := ⟨fuel - 1, by omega⟩
    have h0 := hopp 0 (by omega)
    simp only [Nat.cast_zero, zero_mul, add_zero] at h0
    obtain ⟨idx, hb, hsq⟩ := at?_eq_some.mp h0
    rw [scanLegal, hb]
    simp only []
    rw [if_neg (by rw [hsq]; exact disc_not_ne_empty hp),
      if_neg (by rw [hsq]; exact disc_not_ne_self hp)]
    refine ih f' (nx + dx) (ny + dy) true (by omega) ?_ ?_ (Or.inl rfl)
    · intro j hj
      rw [ray_shift, ray_shift]
      exact hopp (j + 1) (by omega)
    · rw [ray_shift, ray_shift]
      exact hplayer

theorem ray_k_le_seven {b : Board} {p : Disc} {x y dx dy : Int} {k : Nat}
    (hd : (dx, dy) ∈ DIRECTIONS) (hx0 : 0 ≤ x) (hx : x < 8)
    (hy0 : 0 ≤ y) (hy : y < 8)
    (hk : b.at? (x + k * dx) (y + k * dy) = some p) : k ≤ 7 := by
  obtain ⟨idx, hb, _⟩ := at?_eq_some.mp hk
  rw [boardIdx?] at hb
  split at hb
  · next h =>
    obtain ⟨h1, h2, h3, h4⟩ := h
    simp only [DIRECTIONS, List.mem_cons, List.not_mem_nil, or_false,
      Prod.mk.injEq] at hd
    rcases hd with h | h | h | h | h | h | h | h <;>
      obtain ⟨rfl, rfl⟩ := h <;> omega
  · exact absurd hb (by simp)

theorem scanLegal_iff_spec {b : Board} {p : Disc} (hp : p ≠ Disc.Empty)
    {x y dx dy : Int} (hd : (dx, dy) ∈ DIRECTIONS)
    (hx0 : 0 ≤ x) (hx : x < 8) (hy0 : 0 ≤ y) (hy : y < 8) :
    scanLegal b p dx dy 8 (x + dx) (y + dy) false = true ↔
      legalDirSpec b p x y dx dy := by
  constructor
  · intro h
    obtain ⟨k, hopp, hplayer, hcap⟩ :=
      scanLegal_sound hp 8 (x + dx) (y + dy) false h
    have hk1 : 1 ≤ k := by
      rcases hcap with h' | h'
      · exact absurd h' (by simp)
      · exact h'
    refine ⟨k + 1, by omega, ?_, ?_⟩
    · intro j hj1 hjk
      obtain ⟨j', rfl⟩ : ∃ j', j = j' + 1 := ⟨j - 1, by omega⟩
      rw [← ray_shift, ← ray_shift]
      exact hopp j' (by omega)
    · rw [← ray_shift, ← ray_shift]
      exact hplayer
  · rintro ⟨k, hk2, hopp, hplayer⟩
    have hk7 : k ≤ 7 := ray_k_le_seven hd hx0 hx hy0 hy hplayer
    obtain ⟨k', rfl⟩ : ∃ k', k = k' + 1 := ⟨k - 1, by omega⟩
    refine scanLegal_complete hp k' 8 (x + dx) (y + dy) false (by omega)
      ?_ ?_ (Or.inr (by omega))
    · intro j hj
      rw [ray_shift, ray_shift]
      exact hopp (j + 1) (by omega) (by omega)
    · rw [ray_shift, ray_shift]
      exact hplayer

/-! ## Bit characterization of Board::legal_moves -/

/-- The linear cell index of grid coordinates. -/
def cellIdx (y x : Fin 8) : Fin 64 :=
  ⟨y.val * 8 + x.val, by have hx := x.isLt; have hy := y.isLt; omega⟩

/-- The mask one direction contributes for the cell (x, y). -/
def mdirFun (b : Board) (p : Disc) (y x : Fin 8) (d : Int × Int) : Nat :=
  if scanLegal b p d.1 d.2 8 (x.val + d.1) (y.val + d.2) false then
    1 <<< (cellIdx y x).val
  else 0

/-- The mask the cell (x, y) contributes, over all directions. -/
def mxFun (b : Board) (p : Disc) (y x : Fin 8) : Nat :=
  if b.squares (cellIdx y x) ≠ Disc.Empty then 0
  else DIRECTIONS.foldl (fun bf d => bf ||| mdirFun b p y x d) 0

/-- The mask row y contributes, over all of its cells. -/
def myFun (b : Board) (p : Disc) (y : Fin 8) : Nat :=
  (List.finRange 8).foldl (fun bf x => bf ||| mxFun b p y x) 0

theorem legalMovesBF_eq (b : Board) (p : Disc) :
    b.legalMovesBF p =
      (List.finRange 8).foldl (fun bf y => bf ||| myFun b p y) 0 := by
  unfold Board.legalMovesBF
  apply List.foldl_ext
  intro bf y _
  rw [show ((List.finRange 8).foldl (fun bf x =>
      let idx : Fin 64 := ⟨y.val * 8 + x.val, by
        have hx := x.isLt; have hy := y.isLt; omega⟩
      if b.squares idx ≠ Disc.Empty then bf
      else DIRECTIONS.foldl (fun bf d =>
        if scanLegal b p d.1 d.2 8 (x.val + d.1) (y.val + d.2) false then
          bf ||| (1 <<< idx.val)
        else bf) bf) bf) =
    ((List.finRange 8).foldl (fun bf x => bf ||| mxFun b p y x) bf) from ?_]
  · rw [foldl_or_shift]
    rfl
  · apply List.foldl_ext
    intro bf x _
    show (if b.squares (cellIdx y x) ≠ Disc.Empty then bf
      else DIRECTIONS.foldl (fun bf d =>
        if scanLegal b p d.1 d.2 8 (x.val + d.1) (y.val + d.2) false then
          bf ||| (1 <<< (cellIdx y x).val)
        else bf) bf) = bf ||| mxFun b p y x
    by_cases hcell : b.squares (cellIdx y x) = Disc.Empty
    · rw [if_neg (by simp [hcell]), mxFun, if_neg (by simp [hcell])]
      rw [show (DIRECTIONS.foldl (fun bf d =>
          if scanLegal b p d.1 d.2 8 (x.val + d.1) (y.val + d.2) false then
            bf ||| (1 <<< (cellIdx y x).val)
          else bf) bf) =
        (DIRECTIONS.foldl (fun bf d => bf ||| mdirFun b p y x d) bf) from ?_]
      · rw [foldl_or_shift]
      · apply List.foldl_ext
        intro bf d _
        rw [mdirFun]
        by_cases hs : scanLegal b p d.1 d.2 8 (x.val + d.1) (y.val + d.2)
            false = true
        · rw [if_pos hs, if_pos hs]
        · rw [if_neg hs, if_neg hs, Nat.or_zero]
    · rw [if_pos (by simp [hcell]), mxFun, if_pos (by simp [hcell]),
        Nat.or_zero]

theorem testBit_mdirFun {b : Board} {p : Disc} {y x : Fin 8} {d : Int × Int}
    {i : Nat} :
    (mdirFun b p y x d).testBit i = true ↔
      scanLegal b p d.1 d.2 8 (x.val + d.1) (y.val + d.2) false = true ∧
        i = (cellIdx y x).val := by
  rw [mdirFun]
  by_cases hs : scanLegal b p d.1 d.2 8 (x.val + d.1) (y.val + d.2)
      false = true
  · rw [if_pos hs, testBit_one_shiftLeft]
    simp [hs, eq_comm]
  · rw [if_neg hs]
    simp [hs]

theorem testBit_mxFun {b : Board} {p : Disc} {y x : Fin 8} {i : Nat} :
    (mxFun b p y x).testBit i = true ↔
      b.squares (cellIdx y x) = Disc.Empty ∧
        ∃ d ∈ DIRECTIONS,
          scanLegal b p d.1 d.2 8 (x.val + d.1) (y.val + d.2) false = true ∧
            i = (cellIdx y x).val := by
  rw [mxFun]
  by_cases hcell : b.squares (cellIdx y x) = Disc.Empty
  · rw [if_neg (by simp [hcell]), testBit_foldl_or]
    simp only [hcell, true_and]
    constructor
    · rintro ⟨d, hd, h⟩
      exact ⟨d, hd, testBit_mdirFun.mp h⟩
    · rintro ⟨d, hd, h⟩
      exact ⟨d, hd, testBit_mdirFun.mpr h⟩
  · rw [if_pos (by simp [hcell])]
    simp [hcell]

theorem testBit_legalMovesBF {b : Board} {p : Disc} {i : Nat} :
    (b.legalMovesBF p).testBit i = true ↔
      ∃ y x : Fin 8,
        b.squares (cellIdx y x) = Disc.Empty ∧
          ∃ d ∈ DIRECTIONS,
            scanLegal b p d.1 d.2 8 (x.val + d.1) (y.val + d.2) false = true ∧
              i = (cellIdx y x).val := by
  rw [legalMovesBF_eq, testBit_foldl_or]
  constructor
  · rintro ⟨y, _, h⟩
    rw [myFun, testBit_foldl_or] at h
    obtain ⟨x, _, h⟩ := h
    exact ⟨y, x, testBit_mxFun.mp h⟩
  · rintro ⟨y, x, h⟩
    refine ⟨y, List.mem_finRange y, ?_⟩
    rw [myFun, testBit_foldl_or]
    exact ⟨x, List.mem_finRange x, testBit_mxFun.mpr h⟩

/-- C1: for every board and every non-Empty player (the Empty player being
the modelled panic), bit i of Board::legal_moves is set exactly when cell i
is Empty and some compass direction scanning outward from i meets a first
run of one-or-more opposite-color discs immediately followed by a same-color
disc before any Empty cell or board edge; a direction stopping at an Empty
cell or the edge contributes nothing. -/
theorem c1_legal_moves_bitmask_spec (b : Board) (p : Disc) (m : Nat)
    (h : b.legal_moves p = some m) (i : Fin 64) :
    m.testBit i.val = true ↔ cellLegalSpec b p i := by
  have hp : p ≠ Disc.Empty := by
    intro he
    rw [he] at h
    simp [Board.legal_moves] at h
  have hm : m = b.legalMovesBF p := by
    rw [Board.legal_moves, if_neg hp] at h
    exact (Option.some_inj.mp h).symm
  subst hm
  rw [testBit_legalMovesBF, cellLegalSpec]
  constructor
  · rintro ⟨y, x, hemp, d, hd, hscan, hi⟩
    have hfin : cellIdx y x = i := Fin.ext (by simpa [cellIdx] using hi.symm)
    have hix : i.val % 8 = x.val := by
      have : i.val = y.val * 8 + x.val := by simpa [cellIdx] using hi
      have hxlt := x.isLt
      omega
    have hiy : i.val / 8 = y.val := by
      have : i.val = y.val * 8 + x.val := by simpa [cellIdx] using hi
      have hxlt := x.isLt
      omega
    refine ⟨by rw [← hfin]; exact hemp, d, hd, ?_⟩
    rw [hix, hiy]
    exact (scanLegal_iff_spec hp hd (Int.natCast_nonneg x.val)
      (by exact_mod_cast x.isLt) (Int.natCast_nonneg y.val)
      (by exact_mod_cast y.isLt)).mp hscan
  · rintro ⟨hemp, d, hd, hspec⟩
    have hi8 := i.isLt
    refine ⟨⟨i.val / 8, by omega⟩, ⟨i.val % 8, by omega⟩, ?_, d, hd, ?_, ?_⟩
    · have hfin : cellIdx ⟨i.val / 8, by omega⟩ ⟨i.val % 8, by omega⟩ = i :=
        Fin.ext (by simp [cellIdx]; omega)
      rw [hfin]
      exact hemp
    · exact (scanLegal_iff_spec hp hd (Int.natCast_nonneg _)
        (by exact_mod_cast Nat.mod_lt i.val (by omega)) (Int.natCast_nonneg _)
        (by exact_mod_cast Nat.div_lt_of_lt_mul (by omega))).mpr hspec
    · simp [cellIdx]
      omega

set_option maxRecDepth 4000 in
/-- Witness for C1 at a concrete input: on the starting board it is legal
for Black to play d3 (cell 19), and the specification agrees. -/
theorem c1_witness :
    Board.new.legal_moves Disc.Black =
        some (Board.new.legalMovesBF Disc.Black) ∧
      cellLegalSpec Board.new Disc.Black ⟨19, by omega⟩ :=
  ⟨rfl, (c1_legal_moves_bitmask_spec Board.new Disc.Black
    (Board.new.legalMovesBF Disc.Black) rfl ⟨19, by omega⟩).mp (by decide)⟩

/-! ## Characterizing the outflank ray scan -/

/-- The bits of the first k ray positions starting at (nx, ny). -/
def rayBits (dx dy : Int) : Nat → Int → Int → Nat
  | 0, _, _ => 0
  | k + 1, nx, ny =>
    (match boardIdx? nx ny with
      | some idx => 1 <<< idx.val
      | none => 0) ||| rayBits dx dy k (nx + dx) (ny + dy)

theorem or_one_shiftLeft_ne_zero (may n : Nat) : may ||| (1 <<< n) ≠ 0 := by
  intro h
  have h1 : (may ||| 1 <<< n).testBit n = true := by
    rw [Nat.testBit_or, testBit_one_shiftLeft]
    simp
  rw [h] at h1
  simp at h1

theorem ray_shift2 (x dx : Int) (j : Nat) :
    x + dx + dx + (j : Int) * dx = x + ((j + 2 : Nat) : Int) * dx := by
  push_cast
  ring

theorem scanOutflank_sound {b : Board} {p : Disc} (hp : p ≠ Disc.Empty)
    {dx dy : Int} :
    ∀ (fuel : Nat) (nx ny : Int) (may : Nat), may ≠ 0 →
      scanOutflank b p dx dy fuel nx ny may ≠ 0 →
      ∃ k : Nat,
        (∀ j : Nat, j < k →
          b.at? (nx + j * dx) (ny + j * dy) = some (Disc.not p)) ∧
        b.at? (nx + k * dx) (ny + k * dy) = some p ∧
        scanOutflank b p dx dy fuel nx ny may =
          may ||| rayBits dx dy k nx ny := by
  intro fuel
  induction fuel with
  | zero => intro nx ny may _ h; simp [scanOutflank] at h
  | succ fuel ih =>
    intro nx ny may hmay h
    rw [scanOutflank] at h ⊢
    cases hb : boardIdx? nx ny with
    | none => rw [hb] at h; simp at h
    | some idx =>
      rw [hb] at h
      simp only [] at h ⊢
      by_cases he : b.squares idx = Disc.Empty
      · rw [if_pos he] at h; simp at h
      · rw [if_neg he] at h ⊢
        by_cases hpl : b.squares idx = p
        · rw [if_pos ⟨hpl, hmay⟩] at h ⊢
          refine ⟨0, fun j hj => absurd hj (by omega), ?_, ?_⟩
          · simp only [Nat.cast_zero, zero_mul, add_zero]
            exact at?_eq_some.mpr ⟨idx, hb, hpl⟩
          · rw [rayBits, Nat.or_zero]
        · have hcond : ¬(b.squares idx = p ∧ may ≠ 0) := fun hc => hpl hc.1
          rw [if_neg hcond] at h ⊢
          obtain ⟨k, hopp, hplayer, heq⟩ := ih (nx + dx) (ny + dy)
            (may ||| (1 <<< idx.val)) (or_one_shiftLeft_ne_zero may idx.val) h
          refine ⟨k + 1, ?_, ?_, ?_⟩
          · intro j hj
            cases j with
            | zero =>
              simp only [Nat.cast_zero, zero_mul, add_zero]
              exact at?_eq_some.mpr ⟨idx, hb, disc_eq_not_of_ne hp he hpl⟩
            | succ j' =>
              rw [← ray_shift, ← ray_shift]
              exact hopp j' (by omega)
          · rw [← ray_shift, ← ray_shift]
            exact hplayer
          · rw [heq, rayBits, hb, ← Nat.or_assoc]

theorem scanOutflank_complete {b : Board} {p : Disc} (hp : p ≠ Disc.Empty)
    {dx dy : Int} :
    ∀ (k fuel : Nat) (nx ny : Int) (may : Nat), k + 1 ≤ fuel → may ≠ 0 →
      (∀ j : Nat, j < k →
        b.at? (nx + j * dx) (ny + j * dy) = some (Disc.not p)) →
      b.at? (nx + k * dx) (ny + k * dy) = some p →
      scanOutflank b p dx dy fuel nx ny may =
        may ||| rayBits dx dy k nx ny := by
  intro k
  induction k with
  | zero =>
    intro fuel nx ny may hfuel hmay _ hplayer
    obtain ⟨f', rfl⟩ : ∃ f', fuel = f' + 1 := ⟨fuel - 1, by omega⟩
    simp only [Nat.cast_zero, zero_mul, add_zero] at hplayer
    obtain ⟨idx, hb, hsq⟩ := at?_eq_some.mp hplayer
    rw [scanOutflank, hb]
    simp only []
    rw [if_neg (by rw [hsq]; exact hp), if_pos ⟨hsq, hmay⟩, rayBits,
      Nat.or_zero]
  | succ k' ih =>
    intro fuel nx ny may hfuel hmay hopp hplayer
    obtain ⟨f', rfl⟩ : ∃ f', fuel = f' + 1 := ⟨fuel - 1, by omega⟩
    have h0 := hopp 0 (by omega)
    simp only [Nat.cast_zero, zero_mul, add_zero] at h0
    obtain ⟨idx, hb, hsq⟩ := at?_eq_some.mp h0
    have hcond : ¬(b.squares idx = p ∧ may ≠ 0) := fun hc =>
      disc_not_ne_self hp (hsq ▸ hc.1)
    rw [scanOutflank, hb]
    simp only []
    rw [if_neg (by rw [hsq]; exact disc_not_ne_empty hp), if_neg hcond]
    rw [ih f' (nx + dx) (ny + dy) (may ||| (1 <<< idx.val)) (by omega)
      (or_one_shiftLeft_ne_zero may idx.val) ?_ ?_]
    · rw [rayBits, hb, ← Nat.or_assoc]
    · intro j hj
      rw [ray_shift, ray_shift]
      exact hopp (j + 1) (by omega)
    · rw [ray_shift, ray_shift]
      exact hplayer

theorem testBit_rayBits {dx dy : Int} :
    ∀ (k : Nat) (nx ny : Int) (c : Nat),
      (rayBits dx dy k nx ny).testBit c = true ↔
        ∃ j : Nat, j < k ∧ ∃ idx : Fin 64,
          boardIdx? (nx + j * dx) (ny + j * dy) = some idx ∧ idx.val = c := by
  intro k
  induction k with
  | zero =>
    intro nx ny c
    simp [rayBits]
  | succ k' ih =>
    intro nx ny c
    rw [rayBits, Nat.testBit_or]
    constructor
    · intro h
      rcases Bool.or_eq_true_iff.mp h with h | h
      · cases hb : boardIdx? nx ny with
        | none => rw [hb] at h; simp at h
        | some idx =>
          rw [hb] at h
          simp only [testBit_one_shiftLeft, decide_eq_true_eq] at h
          refine ⟨0, by omega, idx, ?_, h⟩
          simpa using hb
      · obtain ⟨j, hj, idx, hidx, hc⟩ := (ih (nx + dx) (ny + dy) c).mp h
        refine ⟨j + 1, by omega, idx, ?_, hc⟩
        rw [← ray_shift, ← ray_shift]
        exact hidx
    · rintro ⟨j, hj, idx, hidx, hc⟩
      apply Bool.or_eq_true_iff.mpr
      cases j with
      | zero =>
        left
        simp only [Nat.cast_zero, zero_mul, add_zero] at hidx
        rw [hidx]
        simp [testBit_one_shiftLeft, hc]
      | succ j' =>
        right
        refine (ih (nx + dx) (ny + dy) c).mpr ⟨j', by omega, idx, ?_, hc⟩
        rw [ray_shift, ray_shift]
        exact hidx

theorem one_shiftLeft_ne_zero (n : Nat) : (1 <<< n) ≠ 0 := by
  rw [Nat.one_shiftLeft]
  exact (Nat.two_pow_pos n).ne'

/-- The amended per-direction outflank contribution (what the source code
computes): the scan flushes at the first same-color disc at distance k of at
least 2, provided the adjacent cell is on the board and not Empty and the
cells at distances 2 to k-1 are all opposite-color; it then contributes every
cell at distances 1 to k-1 — including the adjacent cell when that cell is
the same color as the player. -/
def outflankDirAmended (b : Board) (player : Disc) (x y dx dy : Int)
    (c : Nat) : Prop :=
  ∃ k : Nat, 2 ≤ k ∧
    (∃ d1 : Disc, b.at? (x + dx) (y + dy) = some d1 ∧ d1 ≠ Disc.Empty) ∧
    (∀ j : Nat, 2 ≤ j → j < k →
      b.at? (x + j * dx) (y + j * dy) = some (Disc.not player)) ∧
    b.at? (x + k * dx) (y + k * dy) = some player ∧
    ∃ j : Nat, 1 ≤ j ∧ j < k ∧ ∃ idx : Fin 64,
      boardIdx? (x + j * dx) (y + j * dy) = some idx ∧ idx.val = c

theorem cast_one_mul (x dx : Int) : x + ((1 : Nat) : Int) * dx = x + dx := by
  push_cast
  ring

theorem scanOutflank_top_iff {b : Board} {p : Disc} (hp : p ≠ Disc.Empty)
    {x y dx dy : Int} (hd : (dx, dy) ∈ DIRECTIONS)
    (hx0 : 0 ≤ x) (hx : x < 8) (hy0 : 0 ≤ y) (hy : y < 8)
    (f : Nat) (hf : 7 ≤ f) (c : Nat) :
    (scanOutflank b p dx dy (f + 1) (x + dx) (y + dy) 0).testBit c = true ↔
      outflankDirAmended b p x y dx dy c := by
  cases hb1 : boardIdx? (x + dx) (y + dy) with
  | none =>
    rw [scanOutflank, hb1]
    simp only [Nat.zero_testBit]
    constructor
    · intro h
      exact absurd h (by simp)
    · rintro ⟨k, _, ⟨d1, hd1, _⟩, _⟩
      rw [Board.at?, hb1] at hd1
      exact absurd hd1 (by simp)
  | some idx1 =>
    rw [scanOutflank, hb1]
    simp only []
    by_cases hE : b.squares idx1 = Disc.Empty
    · rw [if_pos hE]
      simp only [Nat.zero_testBit]
      constructor
      · intro h
        exact absurd h (by simp)
      · rintro ⟨k, _, ⟨d1, hd1, hd1ne⟩, _⟩
        rw [Board.at?, hb1] at hd1
        simp only [Option.map_some', Option.some_inj] at hd1
        exact absurd (hd1 ▸ hE) hd1ne
    · have hcond : ¬(b.squares idx1 = p ∧ (0 : Nat) ≠ 0) := by simp
      rw [if_neg hE, if_neg hcond, Nat.zero_or]
      have hmay1 := one_shiftLeft_ne_zero idx1.val
      constructor
      · intro htb
        have hne : scanOutflank b p dx dy f (x + dx + dx) (y + dy + dy)
            (1 <<< idx1.val) ≠ 0 := by
          intro h0
          rw [h0] at htb
          simp at htb
        obtain ⟨k0, hopp, hplayer, heq⟩ :=
          scanOutflank_sound hp f (x + dx + dx) (y + dy + dy)
            (1 <<< idx1.val) hmay1 hne
        rw [heq, Nat.testBit_or] at htb
        refine ⟨k0 + 2, by omega,
          ⟨b.squares idx1, at?_eq_some.mpr ⟨idx1, hb1, rfl⟩, hE⟩, ?_, ?_, ?_⟩
        · intro j hj2 hjk
          obtain ⟨j', rfl⟩ : ∃ j', j = j' + 2 := ⟨j - 2, by omega⟩
          rw [← ray_shift2]
          rw [show y + ((j' + 2 : Nat) : Int) * dy = y + dy + dy + (j' : Int) * dy
            from (ray_shift2 y dy j').symm]
          exact hopp j' (by omega)
        · rw [← ray_shift2]
          rw [show y + ((k0 + 2 : Nat) : Int) * dy = y + dy + dy + (k0 : Int) * dy
            from (ray_shift2 y dy k0).symm]
          exact hplayer
        · rcases Bool.or_eq_true_iff.mp htb with h | h
          · rw [testBit_one_shiftLeft, decide_eq_true_eq] at h
            refine ⟨1, by omega, by omega, idx1, ?_, h⟩
            rw [cast_one_mul, cast_one_mul]
            exact hb1
          · obtain ⟨j', hj', idx, hidx, hc⟩ := (testBit_rayBits k0
              (x + dx + dx) (y + dy + dy) c).mp h
            refine ⟨j' + 2, by omega, by omega, idx, ?_, hc⟩
            rw [← ray_shift2]
            rw [show y + ((j' + 2 : Nat) : Int) * dy = y + dy + dy + (j' : Int) * dy
              from (ray_shift2 y dy j').symm]
            exact hidx
      · rintro ⟨k, hk2, ⟨d1, hd1, hd1ne⟩, hopp, hplayer, j, hj1, hjk, idx,
          hidx, hc⟩
        have hk7 : k ≤ 7 := ray_k_le_seven hd hx0 hx hy0 hy hplayer
        obtain ⟨k0, rfl⟩ : ∃ k0, k = k0 + 2 := ⟨k - 2, by omega⟩
        rw [scanOutflank_complete hp k0 f (x + dx + dx) (y + dy + dy)
          (1 <<< idx1.val) (by omega) hmay1 ?_ ?_]
        · rw [Nat.testBit_or]
          apply Bool.or_eq_true_iff.mpr
          obtain ⟨j', rfl⟩ : ∃ j', j = j' + 1 := ⟨j - 1, by omega⟩
          cases j' with
          | zero =>
            left
            rw [cast_one_mul, cast_one_mul, hb1] at hidx
            have : idx = idx1 := by
              have h' := hidx
              simp only [Option.some_inj] at h'
              exact h'.symm
            rw [testBit_one_shiftLeft, decide_eq_true_eq, ← hc, this]
          | succ j'' =>
            right
            refine (testBit_rayBits k0 (x + dx + dx) (y + dy + dy) c).mpr
              ⟨j'', by omega, idx, ?_, hc⟩
            rw [show x + dx + dx + (j'' : Int) * dx =
              x + ((j'' + 2 : Nat) : Int) * dx from ray_shift2 x dx j'']
            rw [show y + dy + dy + (j'' : Int) * dy =
              y + ((j'' + 2 : Nat) : Int) * dy from ray_shift2 y dy j'']
            exact hidx
        · intro j' hj'
          rw [show x + dx + dx + (j' : Int) * dx =
            x + ((j' + 2 : Nat) : Int) * dx from ray_shift2 x dx j']
          rw [show y + dy + dy + (j' : Int) * dy =
            y + ((j' + 2 : Nat) : Int) * dy from ray_shift2 y dy j']
          exact hopp (j' + 2) (by omega) (by omega)
        · rw [show x + dx + dx + (k0 : Int) * dx =
            x + ((k0 + 2 : Nat) : Int) * dx from ray_shift2 x dx k0]
          rw [show y + dy + dy + (k0 : Int) * dy =
            y + ((k0 + 2 : Nat) : Int) * dy from ray_shift2 y dy k0]
          exact hplayer

/-- C2 amended: for every board, non-Empty player, in-range position and
returned mask, bit c is set exactly when some direction flushes: there is a
first same-color disc at distance k of at least 2, the adjacent cell is
on-board and non-Empty, the cells at distances 2 to k-1 are opposite-color,
and c is one of the cells at distances 1 to k-1 (so the adjacent cell is
included even when it carries the player's own color). -/
theorem c2_outflanks_characterization (b : Board) (p : Disc) (mov : Move)
    (r : Nat) (hc : mov.col < 8) (hr : mov.row < 8)
    (h : b.move_outflanks p mov = some r) (c : Nat) :
    r.testBit c = true ↔
      ∃ d ∈ DIRECTIONS,
        outflankDirAmended b p mov.col mov.row d.1 d.2 c := by
  have hp : p ≠ Disc.Empty := by
    intro he
    rw [he] at h
    simp [Board.move_outflanks] at h
  have hrw : r = DIRECTIONS.foldl (fun bf d =>
      bf ||| scanOutflank b p d.1 d.2 8
        ((mov.col : Int) + d.1) ((mov.row : Int) + d.2) 0) 0 := by
    rw [Board.move_outflanks, if_neg hp] at h
    exact (Option.some_inj.mp h).symm
  subst hrw
  rw [testBit_foldl_or]
  have hcol0 : (0 : Int) ≤ (mov.col : Int) := Int.natCast_nonneg _
  have hcol8 : (mov.col : Int) < 8 := by exact_mod_cast hc
  have hrow0 : (0 : Int) ≤ (mov.row : Int) := Int.natCast_nonneg _
  have hrow8 : (mov.row : Int) < 8 := by exact_mod_cast hr
  constructor
  · rintro ⟨d, hd, htb⟩
    refine ⟨d, hd, ?_⟩
    exact (scanOutflank_top_iff hp (by simpa using hd) hcol0 hcol8
      hrow0 hrow8 7 (by omega) c).mp htb
  · rintro ⟨d, hd, hspec⟩
    exact ⟨d, hd, (scanOutflank_top_iff hp (by simpa using hd) hcol0 hcol8
      hrow0 hrow8 7 (by omega) c).mpr hspec⟩

set_option maxRecDepth 8000 in
/-- Witness for the amended C2 at a concrete input: playing d3 (cell 19) on
the starting board as Black outflanks exactly cell 27, and the
characterization exhibits a qualifying direction for bit 27. -/
theorem c2_witness :
    Board.new.move_outflanks Disc.Black ⟨3, 2⟩ = some (1 <<< 27) ∧
    ∃ d ∈ DIRECTIONS,
      outflankDirAmended Board.new Disc.Black
        ((⟨3, 2⟩ : Move).col) ((⟨3, 2⟩ : Move).row) d.1 d.2 27 :=
  ⟨by decide,
    (c2_outflanks_characterization Board.new Disc.Black ⟨3, 2⟩ _
      (by decide) (by decide) rfl 27).mp (by decide)⟩

/-- The outflank mask as the claim words it (the comparison definition for
the C2 counterexample): per direction, collect the run of one-or-more
opposite-color discs strictly between the played cell and a terminating
same-color disc, with no Empty gap; a direction without such a sandwich
contributes nothing. -/
def specRunScan (b : Board) (player : Disc) (dx dy : Int) :
    Nat → Int → Int → Nat → Nat
  | 0, _, _, _ => 0
  | fuel + 1, nx, ny, acc =>
    match boardIdx? nx ny with
    | none => 0
    | some idx =>
      if b.squares idx = Disc.not player then
        specRunScan b player dx dy fuel (nx + dx) (ny + dy)
          (acc ||| (1 <<< idx.val))
      else if b.squares idx = player then acc
      else 0

/-- The union over the 8 directions of the spec-worded sandwich runs. -/
def specSandwichMask (b : Board) (player : Disc) (mov : Move) : Nat :=
  DIRECTIONS.foldl (fun bf d =>
    bf ||| specRunScan b player d.1 d.2 8
      ((mov.col : Int) + d.1) ((mov.row : Int) + d.2) 0) 0

/-- A board holding only two White discs, at cells 1 and 2 of the top row. -/
def pairBoard : Board :=
  ⟨fun i => if i.val = 1 ∨ i.val = 2 then Disc.White else Disc.Empty⟩

set_option maxRecDepth 8000 in
/-- C2 counterexample: on pairBoard, White playing a1 (cell 0) gets mask 2
from move_outflanks — bit 1, a cell that already holds a White disc — while
the union of intermediate opposite-color sandwich cells the claim describes
is empty; the returned mask is therefore not that union, and it sets a bit
of a same-color cell. -/
theorem c2_counterexample :
    Board.move_outflanks pairBoard Disc.White ⟨0, 0⟩ = some 2 ∧
    specSandwichMask pairBoard Disc.White ⟨0, 0⟩ = 0 ∧
    (2 : Nat) ≠ 0 ∧
    (2 : Nat).testBit 1 = true ∧
    pairBoard.squares ⟨1, by omega⟩ = Disc.White := by
  exact ⟨by decide, by decide, by decide, by decide, by decide⟩

/-! ## The scores always sum to 64 -/

theorem scores_foldl_sum (b : Board) :
    ∀ (l : List (Fin 64)) (acc : Nat × Nat × Nat),
      (l.foldl (fun acc i =>
        match b.squares i with
        | Disc.White => (acc.1 + 1, acc.2.1, acc.2.2)
        | Disc.Black => (acc.1, acc.2.1 + 1, acc.2.2)
        | Disc.Empty => (acc.1, acc.2.1, acc.2.2 + 1)) acc).1 +
      (l.foldl (fun acc i =>
        match b.squares i with
        | Disc.White => (acc.1 + 1, acc.2.1, acc.2.2)
        | Disc.Black => (acc.1, acc.2.1 + 1, acc.2.2)
        | Disc.Empty => (acc.1, acc.2.1, acc.2.2 + 1)) acc).2.1 +
      (l.foldl (fun acc i =>
        match b.squares i with
        | Disc.White => (acc.1 + 1, acc.2.1, acc.2.2)
        | Disc.Black => (acc.1, acc.2.1 + 1, acc.2.2)
        | Disc.Empty => (acc.1, acc.2.1, acc.2.2 + 1)) acc).2.2 =
      acc.1 + acc.2.1 + acc.2.2 + l.length := by
  intro l
  induction l with
  | nil => intro acc; simp
  | cons a l ih =>
    intro acc
    simp only [List.foldl_cons, List.length_cons]
    cases hsq : b.squares a <;> rw [ih] <;> simp <;> omega

theorem scores_sum (b : Board) :
    b.scores.1 + b.scores.2.1 + b.scores.2.2 = 64 := by
  unfold Board.scores
  rw [scores_foldl_sum]
  simp

/-! ## Structure of one pass of Game::legal_moves -/

/-- The cached mask, when present, is the one Board::legal_moves computes for
the color recorded as to move. -/
def maskValid (g : Game) : Prop :=
  ∀ m : Nat, g.current_legal_moves = some m →
    g.board.legal_moves g.turn = some m

/-- What Game::legal_moves leaves untouched, and what it writes into the
cache. -/
theorem legal_moves_shape (g g1 : Game) (h : g.legal_moves = some g1) :
    g1.board = g.board ∧ g1.turn = g.turn ∧ g1.settings = g.settings ∧
    g1.save = g.save ∧ g1.white_name = g.white_name ∧
    g1.black_name = g.black_name ∧
    g1.current_legal_moves = some (g.board.legalMovesBF g.turn) ∧
    g.turn ≠ Disc.Empty := by
  unfold Game.legal_moves at h
  cases hE : g.board.legal_moves g.turn with
  | none => rw [hE] at h; exact absurd h (by simp)
  | some lm =>
    have hp : g.turn ≠ Disc.Empty := by
      intro he
      rw [he] at hE
      simp [Board.legal_moves] at hE
    have hlm : lm = g.board.legalMovesBF g.turn := by
      rw [Board.legal_moves, if_neg hp] at hE
      exact (Option.some_inj.mp hE).symm
    subst hlm
    rw [hE] at h
    simp only [Option.bind_eq_bind, Option.some_bind] at h
    by_cases h0 : g.board.legalMovesBF g.turn = 0
    · rw [if_pos h0] at h
      cases hO : g.board.legal_moves (Disc.not g.turn) with
      | none => rw [hO] at h; exact absurd h (by simp)
      | some opp =>
        rw [hO] at h
        simp only [Option.bind_eq_bind, Option.some_bind] at h
        by_cases hopp : opp ≠ 0
        · rw [if_pos hopp] at h
          obtain rfl := Option.some_inj.mp h.symm
          exact ⟨rfl, rfl, rfl, rfl, rfl, rfl, rfl, hp⟩
        · rw [if_neg hopp] at h
          by_cases heq : (g.board.scores).1 = (g.board.scores).2.1
          · rw [if_pos heq] at h
            obtain rfl := Option.some_inj.mp h.symm
            exact ⟨rfl, rfl, rfl, rfl, rfl, rfl, rfl, hp⟩
          · rw [if_neg heq] at h
            by_cases hgt : (g.board.scores).1 > (g.board.scores).2.1
            · rw [if_pos hgt] at h
              simp only [Option.bind_eq_bind, Option.some_bind] at h
              obtain rfl := Option.some_inj.mp h.symm
              exact ⟨rfl, rfl, rfl, rfl, rfl, rfl, rfl, hp⟩
            · rw [if_neg hgt] at h
              simp only [Option.bind_eq_bind, Option.some_bind] at h
              obtain rfl := Option.some_inj.mp h.symm
              exact ⟨rfl, rfl, rfl, rfl, rfl, rfl, rfl, hp⟩
    · rw [if_neg h0] at h
      obtain rfl := Option.some_inj.mp h.symm
      exact ⟨rfl, rfl, rfl, rfl, rfl, rfl, rfl, hp⟩

/-- C4: when the color to move and its opponent both have zero legal moves,
one pass of Game::legal_moves makes the state terminal: Draw when the two
color counts are equal, otherwise Winned by the color with the higher count,
with winner_score the higher count plus the empties, loser_score the lower
count, and the two scores summing to 64. -/
theorem c4_both_stuck_terminal (g g1 : Game)
    (h1 : g.board.legal_moves g.turn = some 0)
    (h2 : g.board.legal_moves (Disc.not g.turn) = some 0)
    (hg : g.legal_moves = some g1) :
    (g.board.scores.1 = g.board.scores.2.1 → g1.state = State.Draw) ∧
    (g.board.scores.1 ≠ g.board.scores.2.1 →
      g1.state = State.Winned
        (if g.board.scores.1 > g.board.scores.2.1 then Disc.White
          else Disc.Black)
        (if g.board.scores.1 > g.board.scores.2.1 then g.white_name
          else g.black_name)
        (max g.board.scores.1 g.board.scores.2.1 + g.board.scores.2.2)
        (min g.board.scores.1 g.board.scores.2.1)) ∧
    max g.board.scores.1 g.board.scores.2.1 + g.board.scores.2.2 +
      min g.board.scores.1 g.board.scores.2.1 = 64 := by
  have hsum := scores_sum g.board
  unfold Game.legal_moves at hg
  rw [h1] at hg
  simp only [Option.bind_eq_bind, Option.some_bind] at hg
  rw [if_pos trivial, h2] at hg
  simp only [Option.bind_eq_bind, Option.some_bind] at hg
  rw [if_neg (by simp)] at hg
  refine ⟨?_, ?_, by omega⟩
  · intro heq
    rw [if_pos heq] at hg
    obtain rfl := Option.some_inj.mp hg.symm
    rfl
  · intro hne
    rw [if_neg hne] at hg
    by_cases hgt : g.board.scores.1 > g.board.scores.2.1
    · rw [if_pos hgt] at hg ⊢
      obtain rfl := Option.some_inj.mp hg.symm
      simp only [if_pos hgt]
    · rw [if_neg hgt] at hg ⊢
      obtain rfl := Option.some_inj.mp hg.symm
      simp only [if_neg hgt]

/-- An end-of-game board: every cell Black. -/
def fullBlackBoard : Board :=
  ⟨fun _ => Disc.Black⟩

/-- A game on the full Black board, recording off. -/
def gStuck : Game :=
  Game.with_board fullBlackBoard "w" "b"
    { show_legal_moves := true, saves_game_dir := none, game_record := false }
    "t"

/-- The game gStuck after one pass of Game::legal_moves. -/
def gStuck1 : Game :=
  (gStuck.legal_moves).getD gStuck

set_option maxRecDepth 8000 in
/-- Witness for C4 at a concrete input: on the all-Black board neither side
can move, and the pass declares Black the winner 64 to 0. -/
theorem c4_witness :
    gStuck1.state = State.Winned Disc.Black "b" 64 0 ∧
    (64 : Nat) + 0 = 64 := by
  have h := c4_both_stuck_terminal gStuck gStuck1 (by decide) (by decide) rfl
  have h2 := h.2.1 (by decide)
  rw [h2]
  exact ⟨by decide, rfl⟩

/-- C5: when the color to move has zero legal moves and the opponent has at
least one, one pass of Game::legal_moves sets TurnForfeited with the board
untouched; resolving it through next_turn hands the turn to the opponent,
clears the cached mask, resets Playing and keeps every cell; and the whole
play iteration resolves this way whatever move the argument supplies — no
move is requested from the forfeited player. -/
theorem c5_forfeit_resolution (g g1 : Game) (m : Nat)
    (h1 : g.board.legal_moves g.turn = some 0)
    (h2 : g.board.legal_moves (Disc.not g.turn) = some m) (hm : m ≠ 0)
    (hg : g.legal_moves = some g1) :
    g1.state = State.TurnForfeited ∧
    g1.board = g.board ∧
    g1.next_turn.turn = Disc.not g.turn ∧
    g1.next_turn.current_legal_moves = none ∧
    g1.next_turn.state = State.Playing ∧
    g1.next_turn.board = g.board ∧
    ∀ mov : Move, g.playStep mov = some (StepOutcome.forfeited g1.next_turn) := by
  have hg' := hg
  unfold Game.legal_moves at hg'
  rw [h1] at hg'
  simp only [Option.bind_eq_bind, Option.some_bind] at hg'
  rw [if_pos trivial, h2] at hg'
  simp only [Option.bind_eq_bind, Option.some_bind] at hg'
  rw [if_pos hm] at hg'
  obtain rfl := Option.some_inj.mp hg'.symm
  refine ⟨rfl, rfl, rfl, rfl, rfl, rfl, ?_⟩
  intro mov
  unfold Game.playStep
  rw [hg]
  simp only [Option.bind_eq_bind, Option.some_bind]

/-- A board where Black cannot move but White can: White a1, Black b1. -/
def wbBoard : Board :=
  ⟨fun i =>
    if i.val = 0 then Disc.White
    else if i.val = 1 then Disc.Black
    else Disc.Empty⟩

/-- A game on wbBoard, Black (the stuck side) to move, recording off. -/
def gWB : Game :=
  Game.with_board wbBoard "w" "b"
    { show_legal_moves := true, saves_game_dir := none, game_record := false }
    "t"

/-- The game gWB after one pass of Game::legal_moves. -/
def gWB1 : Game :=
  (gWB.legal_moves).getD gWB

set_option maxRecDepth 8000 in
/-- Witness for C5 at a concrete input: Black to move on wbBoard has no
legal move while White has one, so the pass forfeits the turn and resolving
it passes play to White with the cache cleared and the board intact. -/
theorem c5_witness :
    gWB1.state = State.TurnForfeited ∧
    gWB1.next_turn.turn = Disc.not gWB.turn ∧
    gWB1.next_turn.current_legal_moves = none ∧
    gWB1.next_turn.state = State.Playing ∧
    gWB1.next_turn.board = gWB.board ∧
    gWB.playStep ⟨0, 0⟩ = some (StepOutcome.forfeited gWB1.next_turn) := by
  have h := c5_forfeit_resolution gWB gWB1
    (wbBoard.legalMovesBF Disc.White) (by decide) rfl (by decide) rfl
  exact ⟨h.1, h.2.2.1, h.2.2.2.1, h.2.2.2.2.1, h.2.2.2.2.2.1,
    h.2.2.2.2.2.2 ⟨0, 0⟩⟩

/-! ## Cache discipline (C6) -/

/-- maskValid lifted to the outcome of one play iteration. -/
def maskValidOutcome : StepOutcome → Prop
  | StepOutcome.terminal g => maskValid g
  | StepOutcome.forfeited g => maskValid g
  | StepOutcome.moved g => maskValid g
  | StepOutcome.rejected g _ => maskValid g
  | StepOutcome.fatal _ => True

theorem make_turn_ok_mask (g : Game) (mov : Move) (g' : Game)
    (h : g.make_turn mov = some (Except.ok g')) :
    g'.current_legal_moves = none := by
  unfold Game.make_turn at h
  dsimp only [] at h
  cases hleg : g.is_legal_move (mov.row * 8 + mov.col) with
  | error e =>
    rw [hleg] at h
    simp only [] at h
    exact absurd (Option.some_inj.mp h) (by simp)
  | ok bb =>
    rw [hleg] at h
    cases bb with
    | false =>
      simp only [] at h
      exact absurd (Option.some_inj.mp h) (by simp)
    | true =>
      simp only [] at h
      cases hcd : g.board.change_disc mov g.turn with
      | none => rw [hcd] at h; simp at h
      | some b1 =>
        rw [hcd] at h
        simp only [Option.bind_eq_bind, Option.some_bind] at h
        cases hof : b1.move_outflanks g.turn mov with
        | none => rw [hof] at h; simp at h
        | some ofl =>
          rw [hof] at h
          simp only [Option.bind_eq_bind, Option.some_bind] at h
          obtain rfl := Except.ok.inj (Option.some_inj.mp h)
          rfl

theorem step_tail_mask (g2 : Game) (mov : Move) (r : StepOutcome)
    (hmv2 : maskValid g2)
    (h : (match g2.make_turn mov with
      | none => none
      | some (Except.ok g3) => some (StepOutcome.moved g3)
      | some (Except.error (OthelloError.IllegalMove rr cc)) =>
        some (StepOutcome.rejected g2 (OthelloError.IllegalMove rr cc))
      | some (Except.error e) => some (StepOutcome.fatal e)) = some r) :
    maskValidOutcome r := by
  cases hmt : g2.make_turn mov with
  | none => rw [hmt] at h; simp at h
  | some res =>
    rw [hmt] at h
    cases res with
    | ok g3 =>
      simp only [] at h
      obtain rfl := Option.some_inj.mp h
      intro mm hmm
      rw [make_turn_ok_mask g2 mov g3 hmt] at hmm
      exact absurd hmm (by simp)
    | error e =>
      cases e with
      | IllegalMove rr cc =>
        simp only [] at h
        obtain rfl := Option.some_inj.mp h
        exact hmv2
      | InvalidAlgebric t =>
        simp only [] at h
        obtain rfl := Option.some_inj.mp h
        trivial
      | LegalMovesNotComputed =>
        simp only [] at h
        obtain rfl := Option.some_inj.mp h
        trivial
      | IoError =>
        simp only [] at h
        obtain rfl := Option.some_inj.mp h
        trivial
      | InvalidLenghtOfNotation =>
        simp only [] at h
        obtain rfl := Option.some_inj.mp h
        trivial
      | InvalidCharInNotation ch =>
        simp only [] at h
        obtain rfl := Option.some_inj.mp h
        trivial
      | InvalidPlayerType =>
        simp only [] at h
        obtain rfl := Option.some_inj.mp h
        trivial
      | SerdeJsonError =>
        simp only [] at h
        obtain rfl := Option.some_inj.mp h
        trivial

/-- C6: every state mutation of Game clears the cached legal-move mask
(next_turn, which also resolves forfeitures, and an accepted make_turn both
leave it absent), a read of the absent mask through is_legal_move fails
loudly with LegalMovesNotComputed, and after any play iteration every game
held in the outcome has a mask that, when present, is exactly what
Board::legal_moves returns for the color recorded as to move. -/
theorem c6_mask_discipline (g : Game) (mov : Move) (idx : Nat) (g' : Game)
    (r : StepOutcome) :
    g.next_turn.current_legal_moves = none ∧
    (g.make_turn mov = some (Except.ok g') →
      g'.current_legal_moves = none) ∧
    (g.current_legal_moves = none →
      g.is_legal_move idx = Except.error OthelloError.LegalMovesNotComputed) ∧
    (g.playStep mov = some r → maskValidOutcome r) := by
  refine ⟨rfl, make_turn_ok_mask g mov g', ?_, ?_⟩
  · intro h
    unfold Game.is_legal_move
    rw [h]
  · intro h
    unfold Game.playStep at h
    cases hlm : g.legal_moves with
    | none => rw [hlm] at h; simp at h
    | some g1 =>
      rw [hlm] at h
      simp only [Option.bind_eq_bind, Option.some_bind] at h
      obtain ⟨hb, ht, _, _, _, _, hmask, hp⟩ := legal_moves_shape g g1 hlm
      have hmv : maskValid g1 := by
        intro mm hmm
        rw [hmask] at hmm
        obtain rfl := Option.some_inj.mp hmm
        rw [hb, ht, Board.legal_moves, if_neg hp]
      cases hst : g1.state with
      | Winned a bn c dn =>
        rw [hst] at h
        simp only [] at h
        obtain rfl := Option.some_inj.mp h
        exact hmv
      | Draw =>
        rw [hst] at h
        simp only [] at h
        obtain rfl := Option.some_inj.mp h
        exact hmv
      | TurnForfeited =>
        rw [hst] at h
        simp only [] at h
        obtain rfl := Option.some_inj.mp h
        intro mm hmm
        exact absurd hmm (by simp [Game.next_turn])
      | Playing =>
        rw [hst] at h
        simp only [] at h
        by_cases hrec : g1.settings.game_record
        · rw [if_pos hrec] at h
          cases hsave : g1.save with
          | none => rw [hsave] at h; simp at h
          | some sv =>
            rw [hsave] at h
            refine step_tail_mask
              { g1 with
                state := State.Playing,
                save := some (sv.push_move mov) } mov r ?_ h
            intro mm hmm
            exact hmv mm hmm
        · rw [if_neg hrec] at h
          exact step_tail_mask g1 mov r hmv h

/-- A fresh game on the starting board with the Black legal-move mask
cached, recording off. -/
def gMask : Game :=
  { Game.with_board Board.new "w" "b"
      { show_legal_moves := true, saves_game_dir := none,
        game_record := false } "t" with
    current_legal_moves := some (Board.new.legalMovesBF Disc.Black) }

/-- The game gMask after accepting the legal move d3. -/
def gMask2 : Game :=
  match gMask.make_turn ⟨3, 2⟩ with
  | some (Except.ok g) => g
  | _ => gMask

/-- A fresh game on the starting board with no cached mask, recording off. -/
def gNoMask : Game :=
  Game.with_board Board.new "w" "b"
    { show_legal_moves := true, saves_game_dir := none, game_record := false }
    "t"

/-- The game held in the rejected outcome of playing the illegal a1 from
gNoMask. -/
def gRej : Game :=
  match gNoMask.playStep ⟨0, 0⟩ with
  | some (StepOutcome.rejected g _) => g
  | _ => gNoMask

set_option maxRecDepth 8000 in
/-- Witness for C6 at concrete inputs: toggling the turn and accepting d3
both leave the cache absent, reading the absent cache fails loudly, and the
game held in a rejected outcome carries exactly the mask Board::legal_moves
computes for its color to move. -/
theorem c6_witness :
    gMask.next_turn.current_legal_moves = none ∧
    gMask2.current_legal_moves = none ∧
    gNoMask.is_legal_move 0 = Except.error OthelloError.LegalMovesNotComputed ∧
    gRej.board.legal_moves gRej.turn =
      some (Board.new.legalMovesBF Disc.Black) := by
  have h := c6_mask_discipline gMask ⟨3, 2⟩ 0 gMask2
    (StepOutcome.rejected gRej (OthelloError.IllegalMove 0 0))
  have h' := c6_mask_discipline gNoMask ⟨0, 0⟩ 0 gMask2
    (StepOutcome.rejected gRej (OthelloError.IllegalMove 0 0))
  refine ⟨h.1, h.2.1 rfl, h'.2.2.1 rfl, ?_⟩
  exact (h'.2.2.2 rfl) (Board.new.legalMovesBF Disc.Black) rfl

/-! ## C3: a rejected move is still recorded (code bug) -/

/-- A fresh game on the starting board with recording on: with_board
initializes the save with an empty move list. -/
def recGame : Game :=
  Game.with_board Board.new "w" "b"
    { show_legal_moves := true, saves_game_dir := some "saves",
      game_record := true }
    "t"

/-- The game held in the rejected outcome of attempting the illegal a1 from
recGame. -/
def recG2 : Game :=
  match recGame.playStep ⟨0, 0⟩ with
  | some (StepOutcome.rejected g _) => g
  | _ => recGame

set_option maxRecDepth 8000 in
/-- C3 failing input, evaluated: with recording on, attempting the illegal
move a1 (row 0, col 0) on the fresh game is rejected with IllegalMove and
leaves the board, the turn, the State and the cached mask unchanged — but
the recorded move list has grown from [] to [a1], because Game::play pushes
the move into the save before make_turn validates it. -/
theorem c3_rejected_move_recorded :
    recGame.playStep ⟨0, 0⟩ =
      some (StepOutcome.rejected recG2 (OthelloError.IllegalMove 0 0)) ∧
    recGame.save =
      some { title := "t", moves := [], end_state := State.Playing } ∧
    recG2.save =
      some { title := "t", moves := [⟨0, 0⟩], end_state := State.Playing } ∧
    recG2.save ≠ recGame.save ∧
    recG2.board = recGame.board ∧
    recG2.turn = recGame.turn ∧
    recG2.state = State.Playing ∧
    recG2.current_legal_moves =
      some (Board.new.legalMovesBF Disc.Black) := by
  exact ⟨rfl, rfl, rfl, by decide, rfl, rfl, rfl, rfl⟩

/-! ## C7: the algebraic parse -/

theorem charUtf8Size_pos (c : Char) : 1 ≤ charUtf8Size c := by
  unfold charUtf8Size
  split
  · omega
  · split
    · omega
    · split <;> omega

theorem charUtf8Size_eq_one_iff (c : Char) :
    charUtf8Size c = 1 ↔ c.toNat ≤ 127 := by
  unfold charUtf8Size
  split
  · next h => simp; omega
  · next h =>
    split
    · simp; omega
    · split <;> simp <;> omega

theorem charUtf8Size_eq_two_iff (c : Char) :
    charUtf8Size c = 2 ↔ 128 ≤ c.toNat ∧ c.toNat ≤ 2047 := by
  unfold charUtf8Size
  split
  · next h => simp; omega
  · next h =>
    split
    · next h2 => simp; omega
    · split <;> simp <;> omega

/-- The amended behavior of Move::from_algebric, stated input shape by input
shape: two ASCII characters parse as the claim says (in-range gives the
move, out-of-range the notation error); any input whose UTF-8 byte length
differs from 2 gives the notation error; and the one remaining shape — a
single character of byte length 2, scalar values 128 to 2047 — is the
modelled panic, the failed second unwrap. -/
def from_algebricAmended (pos : List Char) :
    Option (Except OthelloError Move) :=
  match pos with
  | [c1, c2] =>
    if c1.toNat ≤ 127 ∧ c2.toNat ≤ 127 then
      if 97 ≤ c1.toNat ∧ c1.toNat ≤ 104 ∧ 49 ≤ c2.toNat ∧ c2.toNat ≤ 56 then
        some (Except.ok { col := c1.toNat - 97, row := c2.toNat - 49 })
      else some (Except.error (OthelloError.InvalidAlgebric pos))
    else some (Except.error (OthelloError.InvalidAlgebric pos))
  | [c] =>
    if 128 ≤ c.toNat ∧ c.toNat ≤ 2047 then none
    else some (Except.error (OthelloError.InvalidAlgebric pos))
  | _ => some (Except.error (OthelloError.InvalidAlgebric pos))

/-- C7 amended: on every input, Move::from_algebric behaves exactly as the
amended description states — in particular it parses precisely the in-range
two-ASCII-character strings, rejects other inputs with InvalidAlgebric
carrying the offending text, except that a single 2-byte character panics. -/
theorem c7_from_algebric_amended (pos : List Char) :
    Move.from_algebric pos = from_algebricAmended pos := by
  unfold Move.from_algebric algebric2xy from_algebricAmended
  cases pos with
  | nil => rfl
  | cons c1 rest =>
    cases rest with
    | nil =>
      have h1 := charUtf8Size_pos c1
      have hlen : utf8Length [c1] = charUtf8Size c1 := by
        simp [utf8Length]
      by_cases hsz : charUtf8Size c1 = 2
      · rw [if_neg (by rw [hlen, hsz]; omega)]
        dsimp only []
        rw [if_pos ((charUtf8Size_eq_two_iff c1).mp hsz)]
        rfl
      · rw [if_pos (by rw [hlen]; omega)]
        dsimp only []
        rw [if_neg (fun hc => hsz ((charUtf8Size_eq_two_iff c1).mpr hc))]
        rfl
    | cons c2 rest2 =>
      cases rest2 with
      | cons c3 rest3 =>
        have h1 := charUtf8Size_pos c1
        have h2 := charUtf8Size_pos c2
        have h3 := charUtf8Size_pos c3
        have hlen : utf8Length (c1 :: c2 :: c3 :: rest3) =
            charUtf8Size c1 + (charUtf8Size c2 + (charUtf8Size c3 +
              (rest3.map charUtf8Size).sum)) := by
          simp [utf8Length]
        rw [if_pos (by rw [hlen]; omega)]
        rfl
      | nil =>
        have h1 := charUtf8Size_pos c1
        have h2 := charUtf8Size_pos c2
        have hlen : utf8Length [c1, c2] =
            charUtf8Size c1 + (charUtf8Size c2 + 0) := by
          simp [utf8Length]
        by_cases hascii : c1.toNat ≤ 127 ∧ c2.toNat ≤ 127
        · have hs1 : charUtf8Size c1 = 1 :=
            (charUtf8Size_eq_one_iff c1).mpr hascii.1
          have hs2 : charUtf8Size c2 = 1 :=
            (charUtf8Size_eq_one_iff c2).mpr hascii.2
          rw [if_neg (by rw [hlen, hs1, hs2]; omega)]
          dsimp only []
          rw [if_pos hascii]
          have hm1 : c1.toNat % 256 = c1.toNat :=
            Nat.mod_eq_of_lt (by omega)
          have hm2 : c2.toNat % 256 = c2.toNat :=
            Nat.mod_eq_of_lt (by omega)
          rw [hm1, hm2]
          by_cases hrange : 97 ≤ c1.toNat ∧ c1.toNat ≤ 104 ∧
              49 ≤ c2.toNat ∧ c2.toNat ≤ 56
          · rw [if_neg (by push_neg; omega), if_pos hrange]
            rfl
          · rw [if_pos (by push_neg at hrange ⊢; omega), if_neg hrange]
            rfl
        · by_cases hsz : charUtf8Size c1 + (charUtf8Size c2 + 0) = 2
          · have hs1 : charUtf8Size c1 = 1 := by omega
            have hs2 : charUtf8Size c2 = 1 := by omega
            exact absurd ⟨(charUtf8Size_eq_one_iff c1).mp hs1,
              (charUtf8Size_eq_one_iff c2).mp hs2⟩ hascii
          · rw [if_pos (by rw [hlen]; omega)]
            dsimp only []
            rw [if_neg hascii]
            rfl

/-- C7 counterexample: the 2-byte single-character input U+00E9 passes the
byte-length check and then panics on the second unwrap (the modelled none);
it does not return the InvalidAlgebric error the claim promises for every
malformed input. -/
theorem c7_counterexample :
    Move.from_algebric [Char.ofNat 233] = none ∧
    Move.from_algebric [Char.ofNat 233] ≠
      some (Except.error (OthelloError.InvalidAlgebric [Char.ofNat 233])) := by
  refine ⟨rfl, fun h => ?_⟩
  exact Option.noConfusion h

/-! ## C8: the board notation parser -/

/-- The three characters the notation accepts. -/
def goodChar (c : Char) : Bool :=
  c = '-' || c = 'O' || c = 'X'

/-- The disc a notation character denotes, with a default for the dash
(which writes nothing over the given cell). -/
def charDisc (c : Char) (dflt : Disc) : Disc :=
  if c = 'O' then Disc.White else if c = 'X' then Disc.Black else dflt


theorem charDisc_dash (d : Disc) : charDisc '-' d = d := rfl

theorem charDisc_O (d : Disc) : charDisc 'O' d = Disc.White := rfl

theorem charDisc_X (d : Disc) : charDisc 'X' d = Disc.Black := rfl

theorem fromStrLoop_good (s : List Char) :
    ∀ (bd : Fin 64 → Disc) (i : Nat),
      (∀ c ∈ s, goodChar c = true) → i + s.length ≤ 64 →
      fromStrLoop bd i s = some (Except.ok (fun j =>
        if i ≤ j.val ∧ j.val < i + s.length then
          charDisc (s.getD (j.val - i) '-') (bd j)
        else bd j)) := by
  induction s with
  | nil =>
    intro bd i _ _
    rw [fromStrLoop]
    have hfun : (fun j : Fin 64 =>
        if i ≤ j.val ∧ j.val < i + ([] : List Char).length then
          charDisc (([] : List Char).getD (j.val - i) '-') (bd j)
        else bd j) = bd := by
      funext j
      rw [if_neg (by simp)]
    rw [hfun]
  | cons c s ih =>
    intro bd i hgood hle
    have hsg : ∀ c' ∈ s, goodChar c' = true := fun c' hc' =>
      hgood c' (by simp [hc'])
    simp only [List.length_cons] at hle
    have hi : i < 64 := by omega
    rcases (by simpa [goodChar, or_assoc] using hgood c (by simp) :
        c = '-' ∨ c = 'O' ∨ c = 'X') with rfl | rfl | rfl
    · rw [fromStrLoop, if_pos rfl]
      have hstep : fromStrLoop bd (i + charUtf8Size '-') s =
          fromStrLoop bd (i + 1) s := rfl
      rw [hstep, ih bd (i + 1) hsg (by omega)]
      congr 2
      funext j
      simp only [List.length_cons]
      by_cases h1 : i + 1 ≤ j.val ∧ j.val < i + 1 + s.length
      · have harg : ('-' :: s).getD (j.val - i) '-' =
            s.getD (j.val - (i + 1)) '-' := by
          rw [show j.val - i = (j.val - (i + 1)) + 1 from by omega,
            List.getD_cons_succ]
        rw [if_pos h1,
          if_pos (show i ≤ j.val ∧ j.val < i + (s.length + 1) from by omega),
          harg]
      · by_cases h2 : j.val = i
        · rw [if_neg h1,
            if_pos (show i ≤ j.val ∧ j.val < i + (s.length + 1) from by
              omega),
            show j.val - i = 0 from by omega, List.getD_cons_zero,
            charDisc_dash]
        · rw [if_neg h1,
            if_neg (show ¬(i ≤ j.val ∧ j.val < i + (s.length + 1)) from by
              omega)]
    · rw [fromStrLoop, if_neg (by decide), if_pos rfl, dif_pos hi]
      have hstep : ∀ bd' : Fin 64 → Disc,
          fromStrLoop bd' (i + charUtf8Size 'O') s =
            fromStrLoop bd' (i + 1) s := fun _ => rfl
      rw [hstep, ih (fun j => if j = ⟨i, hi⟩ then Disc.White else bd j)
          (i + 1) hsg (by omega)]
      congr 2
      funext j
      simp only [List.length_cons]
      by_cases h1 : i + 1 ≤ j.val ∧ j.val < i + 1 + s.length
      · have hne : j ≠ (⟨i, hi⟩ : Fin 64) := by
          intro hji
          have hv : j.val = i := by rw [hji]
          omega
        have harg : ('O' :: s).getD (j.val - i) '-' =
            s.getD (j.val - (i + 1)) '-' := by
          rw [show j.val - i = (j.val - (i + 1)) + 1 from by omega,
            List.getD_cons_succ]
        rw [if_neg hne, if_pos h1,
          if_pos (show i ≤ j.val ∧ j.val < i + (s.length + 1) from by omega),
          harg]
      · by_cases h2 : j.val = i
        · have heq : j = (⟨i, hi⟩ : Fin 64) := Fin.ext h2
          rw [if_pos heq, if_neg h1,
            if_pos (show i ≤ j.val ∧ j.val < i + (s.length + 1) from by
              omega),
            show j.val - i = 0 from by omega, List.getD_cons_zero, charDisc_O]
        · have hne : j ≠ (⟨i, hi⟩ : Fin 64) := by
            intro hji
            have hv : j.val = i := by rw [hji]
            exact h2 hv
          rw [if_neg hne, if_neg h1,
            if_neg (show ¬(i ≤ j.val ∧ j.val < i + (s.length + 1)) from by
              omega)]
    · rw [fromStrLoop, if_neg (by decide), if_neg (by decide), if_pos rfl,
        dif_pos hi]
      have hstep : ∀ bd' : Fin 64 → Disc,
          fromStrLoop bd' (i + charUtf8Size 'X') s =
            fromStrLoop bd' (i + 1) s := fun _ => rfl
      rw [hstep, ih (fun j => if j = ⟨i, hi⟩ then Disc.Black else bd j)
          (i + 1) hsg (by omega)]
      congr 2
      funext j
      simp only [List.length_cons]
      by_cases h1 : i + 1 ≤ j.val ∧ j.val < i + 1 + s.length
      · have hne : j ≠ (⟨i, hi⟩ : Fin 64) := by
          intro hji
          have hv : j.val = i := by rw [hji]
          omega
        have harg : ('X' :: s).getD (j.val - i) '-' =
            s.getD (j.val - (i + 1)) '-' := by
          rw [show j.val - i = (j.val - (i + 1)) + 1 from by omega,
            List.getD_cons_succ]
        rw [if_neg hne, if_pos h1,
          if_pos (show i ≤ j.val ∧ j.val < i + (s.length + 1) from by omega),
          harg]
      · by_cases h2 : j.val = i
        · have heq : j = (⟨i, hi⟩ : Fin 64) := Fin.ext h2
          rw [if_pos heq, if_neg h1,
            if_pos (show i ≤ j.val ∧ j.val < i + (s.length + 1) from by
              omega),
            show j.val - i = 0 from by omega, List.getD_cons_zero, charDisc_X]
        · have hne : j ≠ (⟨i, hi⟩ : Fin 64) := by
            intro hji
            have hv : j.val = i := by rw [hji]
            exact h2 hv
          rw [if_neg hne, if_neg h1,
            if_neg (show ¬(i ≤ j.val ∧ j.val < i + (s.length + 1)) from by
              omega)]

theorem utf8Length_ge_length (s : List Char) : s.length ≤ utf8Length s := by
  induction s with
  | nil => simp [utf8Length]
  | cons c s ih =>
    have := charUtf8Size_pos c
    simp only [utf8Length, List.map_cons, List.sum_cons, List.length_cons]
    simp only [utf8Length] at ih
    omega

theorem fromStrLoop_bad (s : List Char) :
    ∀ (bd : Fin 64 → Disc) (i : Nat) (cbad : Char),
      i + s.length ≤ 64 →
      s.find? (fun c => !goodChar c) = some cbad →
      fromStrLoop bd i s =
        some (Except.error (OthelloError.InvalidCharInNotation cbad)) := by
  induction s with
  | nil =>
    intro bd i cbad _ hf
    simp at hf
  | cons c s ih =>
    intro bd i cbad hle hf
    simp only [List.length_cons] at hle
    by_cases hg : goodChar c = true
    · have hf' : s.find? (fun c => !goodChar c) = some cbad := by
        rwa [List.find?_cons_of_neg _ (by simp [hg])] at hf
      have hsne : s ≠ [] := by
        intro hnil
        rw [hnil] at hf'
        simp at hf'
      have hslen : 1 ≤ s.length := by
        cases s with
        | nil => exact absurd rfl hsne
        | cons a t => simp
      rcases (by simpa [goodChar, or_assoc] using hg :
          c = '-' ∨ c = 'O' ∨ c = 'X') with rfl | rfl | rfl
      · rw [fromStrLoop, if_pos rfl]
        exact ih bd (i + charUtf8Size '-') cbad
          (by have hc : charUtf8Size '-' = 1 := rfl; omega) hf'
      · rw [fromStrLoop, if_neg (by decide), if_pos rfl,
          dif_pos (show i < 64 by omega)]
        exact ih _ (i + charUtf8Size 'O') cbad
          (by have hc : charUtf8Size 'O' = 1 := rfl; omega) hf'
      · rw [fromStrLoop, if_neg (by decide), if_neg (by decide), if_pos rfl,
          dif_pos (show i < 64 by omega)]
        exact ih _ (i + charUtf8Size 'X') cbad
          (by have hc : charUtf8Size 'X' = 1 := rfl; omega) hf'
    · obtain rfl : cbad = c := by
        rw [List.find?_cons_of_pos _ (by simp [hg])] at hf
        exact (Option.some_inj.mp hf).symm
      have h1 : cbad ≠ '-' := fun h => hg (by rw [h]; rfl)
      have h2 : cbad ≠ 'O' := fun h => hg (by rw [h]; rfl)
      have h3 : cbad ≠ 'X' := fun h => hg (by rw [h]; rfl)
      rw [fromStrLoop, if_neg h1, if_neg h2, if_neg h3]

theorem utf8Length_eq_length_of_good (s : List Char)
    (h : ∀ c ∈ s, goodChar c = true) : utf8Length s = s.length := by
  induction s with
  | nil => rfl
  | cons c s ih =>
    have hc := h c (by simp)
    have hs : utf8Length s = s.length := ih (fun c' hc' => h c' (by simp [hc']))
    have hone : charUtf8Size c = 1 := by
      rcases (by simpa [goodChar, or_assoc] using hc :
          c = '-' ∨ c = 'O' ∨ c = 'X') with rfl | rfl | rfl <;> rfl
    simp only [utf8Length, List.map_cons, List.sum_cons, List.length_cons,
      hone]
    simp only [utf8Length] at hs
    omega

/-- The amended behavior of the FromStr impl for Board: a byte length other
than 64 is the length error; otherwise the first character outside -OX
yields InvalidCharInNotation carrying that character only (the error names
no position); otherwise the parse succeeds with the row-major decoding
dash to Empty, O to White, X to Black. -/
def from_strAmended (s : List Char) : Option (Except OthelloError Board) :=
  if utf8Length s ≠ 64 then
    some (Except.error OthelloError.InvalidLenghtOfNotation)
  else
    match s.find? (fun c => !goodChar c) with
    | some cbad =>
      some (Except.error (OthelloError.InvalidCharInNotation cbad))
    | none =>
      some (Except.ok ⟨fun j => charDisc (s.getD j.val '-') Disc.Empty⟩)

/-- C8 amended: Board::from_str succeeds exactly on the 64-character strings
over -XO, decoding them row-major to Empty, Black, White; a byte length
other than 64 is rejected with the length error, and a bad character in a
64-byte string is rejected with an error identifying the first offending
character but not its position. -/
theorem c8_from_str_amended (s : List Char) :
    Board.from_str s = from_strAmended s := by
  unfold Board.from_str from_strAmended
  by_cases hlen : utf8Length s ≠ 64
  · rw [if_pos hlen, if_pos hlen]
  · rw [if_neg hlen, if_neg hlen]
    push_neg at hlen
    cases hbad : s.find? (fun c => !goodChar c) with
    | some cbad =>
      rw [fromStrLoop_bad s (fun _ => Disc.Empty) 0 cbad
        (by have := utf8Length_ge_length s; omega) hbad]
      rfl
    | none =>
      have hgood : ∀ c ∈ s, goodChar c = true := by
        intro c hc
        have := List.find?_eq_none.mp hbad c hc
        simpa using this
      have hlen' : s.length = 64 := by
        have := utf8Length_eq_length_of_good s hgood
        omega
      rw [fromStrLoop_good s (fun _ => Disc.Empty) 0 hgood (by omega)]
      simp only [Option.map_some']
      refine congrArg some ?_
      refine congrArg Except.ok (congrArg Board.mk ?_)
      funext j
      rw [if_pos ⟨Nat.zero_le _, by have := j.isLt; omega⟩, Nat.sub_zero]

/-- A 64-character notation string with the bad character Z at position 0. -/
def strZ0 : List Char :=
  'Z' :: List.replicate 63 '-'

/-- A 64-character notation string with the bad character Z at position 1. -/
def strZ1 : List Char :=
  '-' :: 'Z' :: List.replicate 62 '-'

/-- C8 counterexample: two strings whose only bad character Z sits at
different positions produce the very same error value, so the error cannot
identify the position of the offending character, only the character. -/
theorem c8_counterexample :
    Board.from_str strZ0 =
      some (Except.error (OthelloError.InvalidCharInNotation 'Z')) ∧
    Board.from_str strZ1 =
      some (Except.error (OthelloError.InvalidCharInNotation 'Z')) ∧
    Board.from_str strZ0 = Board.from_str strZ1 ∧
    strZ0 ≠ strZ1 := by
  have h1 : Board.from_str strZ0 =
      some (Except.error (OthelloError.InvalidCharInNotation 'Z')) := rfl
  have h2 : Board.from_str strZ1 =
      some (Except.error (OthelloError.InvalidCharInNotation 'Z')) := rfl
  exact ⟨h1, h2, h1.trans h2.symm, by decide⟩
